import Mathlib

/-!
Verification of the tire-export ETL pipeline (`src/etl_tire_to_mongo.py`).

The Python source is shallowly embedded: each relevant Python function is
translated into an executable Lean definition over explicit data types
(records as association lists of field name to scalar value, the Mongo
collection as an association list keyed by the composite key, datetimes as
plain calendar triples).  Theorems then settle the specified properties of
the pipeline: header canonicalization, date coercion, session-expiry
detection, key eligibility, last-wins deduplication, batching, upsert
idempotence, counter accounting and connection lifecycle.
-/

namespace EtlTire

/-- A calendar datetime produced by date parsing (year, month, day). -/
structure Date where
  year : Nat
  month : Nat
  day : Nat
  deriving DecidableEq, Repr

/-- A storage-safe scalar cell value: null-like (None / NaN / NaT), text,
or datetime. -/
inductive Value where
  | vNull : Value
  | vStr : String → Value
  | vDate : Date → Value
  deriving DecidableEq, Repr

/-- `pd.isna` on a scalar: true exactly for the null-like values
(None, NaN, NaT).  Note `pd.isna("")` is `False`: an empty string is not
null-like. -/
def isna : Value → Bool
  | .vNull => true
  | _ => false

/-- A row record, as produced by `row.to_dict()`: a mapping from field
name to scalar value.  Modeled as an association list; lookups take the
first binding. -/
abbrev Record := List (String × Value)

/-- `record.get(n)`: value of field `n`, or null when absent
(Python's `dict.get` returns `None`, and `pd.isna(None)` holds). -/
def Record.get (r : Record) (n : String) : Value :=
  match r.find? (fun e => e.1 == n) with
  | some e => e.2
  | none => .vNull

/-- Dict assignment `record[n] = v` (line 160 of the source stamps
`etl_loaded_at`), modeled as remove-then-append; dict keys are unique and
field order is immaterial to the claims. -/
def Record.set (r : Record) (n : String) (v : Value) : Record :=
  r.filter (fun e => e.1 != n) ++ [(n, v)]

/-- The record with every binding of field `n` removed; used to compare
records ignoring the `etl_loaded_at` stamp. -/
def Record.strip (r : Record) (n : String) : Record :=
  r.filter (fun e => e.1 != n)

/-! ## Schema normalizer: `normalize_cols` (source lines 29-37)

`df.columns.astype(str).str.strip().str.lower().str.replace(r"\s+", "_")`.
Headers are modeled as lists of characters. -/

/-- The whitespace class of Python's `str.strip` and the regex `\s`
(ASCII part): space, tab, newline, carriage return, vertical tab,
form feed. -/
def isSpace (c : Char) : Bool :=
  c = ' ' || c = '\t' || c = '\n' || c = '\r' || c = '\x0b' || c = '\x0c'

/-- `str.strip()`: drop leading and trailing whitespace. -/
def stripEnds (cs : List Char) : List Char :=
  ((cs.dropWhile isSpace).reverse.dropWhile isSpace).reverse

/-- `str.replace(r"\s+", "_", regex=True)`: replace each maximal
whitespace run by a single underscore.  The boolean flag records whether
the previous character was inside a whitespace run. -/
def collapseWs : Bool → List Char → List Char
  | _, [] => []
  | inRun, c :: cs =>
    if isSpace c then
      if inRun then collapseWs true cs else '_' :: collapseWs true cs
    else
      c :: collapseWs false cs

/-- `normalize_cols` applied to a single header: strip, lowercase,
collapse whitespace runs to `_`. -/
def normalize_col (cs : List Char) : List Char :=
  collapseWs false ((stripEnds cs).map Char.toLower)

/-- `normalize_cols` (source lines 29-37): canonicalize every column
header of the frame. -/
def normalize_cols (cols : List (List Char)) : List (List Char) :=
  cols.map normalize_col

/-! Helper lemmas for idempotence of `normalize_cols`. -/

theorem toNat_ofNat_valid (n : Nat) (h : n < 55296) : (Char.ofNat n).toNat = n := by
  have hv : n.isValidChar := Or.inl h
  rw [Char.ofNat, dif_pos hv]
  rfl

theorem toLower_toLower (c : Char) : c.toLower.toLower = c.toLower := by
  unfold Char.toLower
  by_cases h : c.toNat ≥ 65 ∧ c.toNat ≤ 90
  · rw [if_pos h]
    have h97 : (Char.ofNat (c.toNat + 32)).toNat = c.toNat + 32 :=
      toNat_ofNat_valid _ (by omega)
    rw [if_neg]
    omega
  · rw [if_neg h, if_neg h]

theorem eq_iff_toNat_eq (c d : Char) : c = d ↔ c.toNat = d.toNat := by
  constructor
  · intro h; rw [h]
  · intro h; exact Char.ext (UInt32.toNat.inj h)

theorem isSpace_iff (c : Char) : isSpace c = true ↔
    (c.toNat = 32 ∨ c.toNat = 9 ∨ c.toNat = 10 ∨ c.toNat = 13 ∨
     c.toNat = 11 ∨ c.toNat = 12) := by
  simp only [isSpace, Bool.or_eq_true, decide_eq_true_eq,
    eq_iff_toNat_eq]
  have e1 : (' ').toNat = 32 := rfl
  have e2 : ('\t').toNat = 9 := rfl
  have e3 : ('\n').toNat = 10 := rfl
  have e4 : ('\r').toNat = 13 := rfl
  have e5 : ('\x0b').toNat = 11 := rfl
  have e6 : ('\x0c').toNat = 12 := rfl
  rw [e1, e2, e3, e4, e5, e6]
  tauto

theorem isSpace_toLower (c : Char) (h : isSpace c = false) :
    isSpace c.toLower = false := by
  unfold Char.toLower
  by_cases hc : c.toNat ≥ 65 ∧ c.toNat ≤ 90
  · rw [if_pos hc]
    have hval := toNat_ofNat_valid (c.toNat + 32) (by omega)
    revert hval
    generalize Char.ofNat (c.toNat + 32) = d
    intro hval
    cases hd : isSpace d with
    | false => rfl
    | true =>
      rcases (isSpace_iff d).mp hd with h1 | h1 | h1 | h1 | h1 | h1 <;> omega
  · rw [if_neg hc]
    exact h

/-- Every character emitted by `collapseWs` is a non-whitespace character:
either the underscore separator or a non-whitespace input character. -/
theorem mem_collapseWs (b : Bool) (cs : List Char) (c : Char)
    (hc : c ∈ collapseWs b cs) : c = '_' ∨ (c ∈ cs ∧ isSpace c = false) := by
  induction cs generalizing b with
  | nil => simp [collapseWs] at hc
  | cons a as ih =>
    by_cases ha : isSpace a = true
    · by_cases hb : b = true
      · rw [hb] at hc
        simp only [collapseWs, ha, if_pos, if_true] at hc
        rcases ih true hc with h | ⟨h1, h2⟩
        · exact Or.inl h
        · exact Or.inr ⟨List.mem_cons_of_mem a h1, h2⟩
      · have hb' : b = false := by revert hb; cases b <;> simp
        rw [hb'] at hc
        simp only [collapseWs, ha, if_true] at hc
        rcases List.mem_cons.mp hc with h | h
        · exact Or.inl h
        · rcases ih true h with h | ⟨h1, h2⟩
          · exact Or.inl h
          · exact Or.inr ⟨List.mem_cons_of_mem a h1, h2⟩
    · have ha' : isSpace a = false := by revert ha; cases isSpace a <;> simp
      simp only [collapseWs, ha'] at hc
      rw [if_neg (by simp [ha'])] at hc
      rcases List.mem_cons.mp hc with h | h
      · exact Or.inr ⟨by rw [h]; exact List.mem_cons_self a as, by rw [h]; exact ha'⟩
      · rcases ih false h with h | ⟨h1, h2⟩
        · exact Or.inl h
        · exact Or.inr ⟨List.mem_cons_of_mem a h1, h2⟩

/-- On whitespace-free input, `collapseWs` is the identity. -/
theorem collapseWs_of_noSpace (b : Bool) (cs : List Char)
    (h : ∀ c ∈ cs, isSpace c = false) : collapseWs b cs = cs := by
  induction cs generalizing b with
  | nil => rfl
  | cons a as ih =>
    have ha := h a (List.mem_cons_self a as)
    simp only [collapseWs]
    rw [if_neg (by simp [ha])]
    rw [ih false (fun c hc => h c (List.mem_cons_of_mem a hc))]

theorem dropWhile_of_noSpace (cs : List Char)
    (h : ∀ c ∈ cs, isSpace c = false) : cs.dropWhile isSpace = cs := by
  cases cs with
  | nil => rfl
  | cons a as =>
    rw [List.dropWhile_cons_of_neg]
    simp [h a (List.mem_cons_self a as)]

/-- On whitespace-free input, `stripEnds` is the identity. -/
theorem stripEnds_of_noSpace (cs : List Char)
    (h : ∀ c ∈ cs, isSpace c = false) : stripEnds cs = cs := by
  unfold stripEnds
  rw [dropWhile_of_noSpace cs h]
  rw [dropWhile_of_noSpace cs.reverse (fun c hc => h c (List.mem_reverse.mp hc))]
  exact List.reverse_reverse cs

/-- `normalize_col` is idempotent on a single header. -/
theorem normalize_col_idem (cs : List Char) :
    normalize_col (normalize_col cs) = normalize_col cs := by
  have hout : ∀ c ∈ normalize_col cs, isSpace c = false := by
    intro c hc
    rcases mem_collapseWs false _ c hc with h | ⟨_, h2⟩
    · rw [h]; rfl
    · exact h2
  have hlower : ∀ c ∈ normalize_col cs, c.toLower = c := by
    intro c hc
    rcases mem_collapseWs false _ c hc with h | ⟨h1, _⟩
    · rw [h]; rfl
    · rcases List.mem_map.mp h1 with ⟨d, _, hd⟩
      rw [← hd]
      exact toLower_toLower d
  have hmap : ∀ l : List Char, (∀ c ∈ l, c.toLower = c) → l.map Char.toLower = l := by
    intro l hl
    induction l with
    | nil => rfl
    | cons a as ih =>
      simp only [List.map_cons]
      rw [hl a (List.mem_cons_self a as), ih (fun c hc => hl c (List.mem_cons_of_mem a hc))]
  conv_lhs => rw [normalize_col]
  rw [stripEnds_of_noSpace _ hout, hmap _ hlower]
  exact collapseWs_of_noSpace false _ hout

/-- C8: header canonicalization (trim, lowercase, collapse internal
whitespace runs to a single separator) is deterministic and idempotent:
applying `normalize_cols` twice to any list of header strings yields the
same result as applying it once. -/
theorem c8_normalize_cols_idempotent (cols : List (List Char)) :
    normalize_cols (normalize_cols cols) = normalize_cols cols := by
  unfold normalize_cols
  rw [List.map_map]
  apply List.map_congr_left
  intro cs _
  exact normalize_col_idem cs

/-! ## Type coercion: `parse_dates` (source lines 80-85)

`pd.to_datetime(df[c], errors="coerce", dayfirst=True)` applied to the
columns `garage_entry_at`, `garage_exit_at`, `updated_at`.  The library
call is modeled on slash-separated numeric dates: with `dayfirst=True`
pandas reads `d/m/y` day-first, falls back to month-first when the middle
component cannot be a month, and coerces empty or unparseable text (and
null-like input) to `NaT`. -/

/-- Split a character list on `/` separators (every separator counts, so
`""` splits to `[""]` and `"a//b"` to `["a","","b"]`). -/
def splitSlash : List Char → List (List Char)
  | [] => [[]]
  | c :: cs =>
    let r := splitSlash cs
    if c = '/' then [] :: r
    else
      match r with
      | [] => [[c]]
      | g :: gs => (c :: g) :: gs

def digitsVal : List Char → Nat → Option Nat
  | [], acc => some acc
  | c :: cs, acc =>
    if c.isDigit then digitsVal cs (acc * 10 + (c.toNat - 48))
    else none

/-- Parse a non-empty all-digit character list as a decimal number. -/
def parseNat : List Char → Option Nat
  | [] => none
  | c :: cs => digitsVal (c :: cs) 0

/-- One value of a date column under
`pd.to_datetime(-, errors="coerce", dayfirst=True)`: day-first reading of
`d/m/y` with pandas' month-first fallback, `none` for empty or
unparseable text. -/
def to_datetime_dayfirst (cs : List Char) : Option Date :=
  match splitSlash cs with
  | [d, m, y] =>
    match parseNat d, parseNat m, parseNat y with
    | some a, some b, some yy =>
      if 1 ≤ a ∧ a ≤ 31 ∧ 1 ≤ b ∧ b ≤ 12 then some ⟨yy, b, a⟩
      else if 1 ≤ b ∧ b ≤ 31 ∧ 1 ≤ a ∧ a ≤ 12 then some ⟨yy, a, b⟩
      else none
    | _, _, _ => none
  | _ => none

/-- Coercion of one scalar by `pd.to_datetime(-, errors="coerce",
dayfirst=True)`: null-like input stays null (`NaT`), an existing datetime
is kept, text is parsed day-first with unparseable text coerced to
null. -/
def coerceDate (v : Value) : Value :=
  match v with
  | .vNull => .vNull
  | .vDate d => .vDate d
  | .vStr s =>
    match to_datetime_dayfirst s.data with
    | some d => .vDate d
    | none => .vNull

/-- The date columns rewritten by `parse_dates` (source line 82). -/
def dateCols : List String := ["garage_entry_at", "garage_exit_at", "updated_at"]

/-- `parse_dates` (source lines 80-85) on one record: the three date
columns, where present, are passed through `pd.to_datetime`; all other
fields are untouched. -/
def parse_dates (r : Record) : Record :=
  r.map (fun e => if e.1 ∈ dateCols then (e.1, coerceDate e.2) else e)

/-- Looking a field up after `parse_dates` gives the coerced value on the
three date columns and the untouched value elsewhere. -/
theorem get_parse_dates (r : Record) (c : String) :
    (parse_dates r).get c =
      (if c ∈ dateCols then coerceDate (r.get c) else r.get c) := by
  induction r with
  | nil =>
    show Record.get [] c = _
    simp only [Record.get, List.find?_nil]
    split <;> rfl
  | cons e r ih =>
    have hfst : (if e.1 ∈ dateCols then (e.1, coerceDate e.2) else e).1 = e.1 := by
      split <;> rfl
    simp only [parse_dates, List.map_cons, Record.get, List.find?_cons, hfst] at *
    cases he : (e.1 == c) with
    | true =>
      have he' : e.1 = c := by simpa using he
      subst he'
      by_cases hd : e.1 ∈ dateCols
      · simp [hd]
      · simp [hd]
    | false => simpa using ih

/-- C5: for the entry, exit and last-modified timestamp columns, date
parsing is day-first ("05/03/2024" is 5 March 2024, not 3 May) and every
empty or unparseable value becomes an explicit null: the coerced field is
always a null or a datetime, never a string sentinel, and the coercion is
a total function (no exception). -/
theorem c5_dayfirst_null_coercion (r : Record) (c : String) (hc : c ∈ dateCols) :
    ((parse_dates r).get c = Value.vNull ∨
      ∃ d, (parse_dates r).get c = Value.vDate d) ∧
    coerceDate (Value.vStr "05/03/2024") = Value.vDate ⟨2024, 3, 5⟩ ∧
    coerceDate (Value.vStr "") = Value.vNull := by
  refine ⟨?_, by decide, by decide⟩
  rw [get_parse_dates, if_pos hc]
  cases h : r.get c with
  | vNull => exact Or.inl rfl
  | vDate d => exact Or.inr ⟨d, rfl⟩
  | vStr s =>
    cases hp : to_datetime_dayfirst s.data with
    | none => exact Or.inl (by simp [coerceDate, hp])
    | some d => exact Or.inr ⟨d, by simp [coerceDate, hp]⟩

theorem c5_witness :
    ("garage_entry_at" ∈ dateCols) ∧
    (((parse_dates [("garage_entry_at", Value.vStr "05/03/2024")]).get
        "garage_entry_at" = Value.vNull ∨
      ∃ d, (parse_dates [("garage_entry_at", Value.vStr "05/03/2024")]).get
        "garage_entry_at" = Value.vDate d) ∧
     coerceDate (Value.vStr "05/03/2024") = Value.vDate ⟨2024, 3, 5⟩ ∧
     coerceDate (Value.vStr "") = Value.vNull) :=
  ⟨by decide,
   c5_dayfirst_null_coercion [("garage_entry_at", Value.vStr "05/03/2024")]
     "garage_entry_at" (by decide)⟩

/-! ## Authenticated fetcher: `fetch_html` (source lines 90-106) -/

/-- Python's substring test `needle in hay` on character lists. -/
def containsSub (needle : List Char) : List Char → Bool
  | [] => needle.isEmpty
  | c :: cs => needle.isPrefixOf (c :: cs) || containsSub needle cs

/-- The error outcomes of `fetch_html`, one per distinct raise site:
missing configuration (line 92), transport failure
(`raise_for_status`, line 98), and the session-expired guard
(line 104). -/
inductive FetchError where
  | configMissing : FetchError
  | transport : Nat → FetchError
  | authExpired : FetchError
  deriving DecidableEq, Repr

/-- An HTTP response: status code and decoded body text. -/
structure HttpResponse where
  status : Nat
  body : List Char

/-- The login-page guard of `fetch_html` (source line 103):
`"login" in low or "phpsessid" in low and "password" in low`, where
Python's `and` binds tighter than `or` and `low` is the lowercased
body. -/
def loginMarkers (low : List Char) : Bool :=
  containsSub "login".data low ||
    (containsSub "phpsessid".data low && containsSub "password".data low)

/-- `fetch_html` (source lines 90-106): configuration guard, HTTP GET
with `raise_for_status` (a 4xx/5xx status raises a transport error),
then the session-expiry guard over the lowercased body.  A `None` or
empty URL or session value is falsy. -/
def fetch_html (url sess : Option String) (resp : HttpResponse) :
    Except FetchError (List Char) :=
  if url.getD "" = "" || sess.getD "" = "" then .error .configMissing
  else if 400 ≤ resp.status then .error (.transport resp.status)
  else if loginMarkers (resp.body.map Char.toLower) then .error .authExpired
  else .ok resp.body

/-- C4: a successfully transported response whose body (case-insensitively)
contains the login indicator, or both the password indicator and the
session-cookie name, fails with the session-expired error, which is a
different constructor from every transport error, so the caller can tell
the two apart. -/
theorem c4_session_expiry (url sess : Option String) (resp : HttpResponse)
    (hu : url.getD "" ≠ "") (hs : sess.getD "" ≠ "")
    (hok : resp.status < 400)
    (hmark : containsSub "login".data (resp.body.map Char.toLower) = true ∨
      (containsSub "phpsessid".data (resp.body.map Char.toLower) = true ∧
       containsSub "password".data (resp.body.map Char.toLower) = true)) :
    fetch_html url sess resp = .error .authExpired ∧
      ∀ st : Nat, FetchError.authExpired ≠ FetchError.transport st := by
  constructor
  · unfold fetch_html
    rw [if_neg (by simp [hu, hs])]
    rw [if_neg (by omega)]
    rw [if_pos]
    unfold loginMarkers
    rcases hmark with h | ⟨h1, h2⟩
    · simp [h]
    · simp [h1, h2]
  · intro st h
    cases h

theorem c4_witness :
    ((some "http://x").getD "" ≠ "") ∧ ((some "tok").getD "" ≠ "") ∧
    (200 < 400) ∧
    containsSub "login".data
      (("<html>Please LOGIN to continue</html>".data).map Char.toLower) = true ∧
    fetch_html (some "http://x") (some "tok")
      ⟨200, "<html>Please LOGIN to continue</html>".data⟩ =
      .error .authExpired :=
  ⟨by decide, by decide, by decide, by decide,
   (c4_session_expiry (some "http://x") (some "tok")
     ⟨200, "<html>Please LOGIN to continue</html>".data⟩
     (by decide) (by decide) (by decide) (Or.inl (by decide))).1⟩

/-! ## Pagination collector (spec §4.2) -/

/-- Modelled from the spec: the Pagination Collector of §4.2 is not part
of `src/` (the single source file's `fetch_html` fetches exactly one
page); per the spec it starts at page 1, fetches and parses each page in
order, and stops as soon as a page yields zero parsed rows or the
configured page bound is reached.  `fetchPage` abstracts fetch+parse of
one page; the second component records which pages were requested, and
the fuel argument is the number of pages the bound still allows. -/
def collectFrom (fetchPage : Nat → List Record) : Nat → Nat → List Record × List Nat
  | 0, _ => ([], [])
  | fuel + 1, page =>
    let rows := fetchPage page
    if rows = [] then ([], [page])
    else
      let rest := collectFrom fetchPage fuel (page + 1)
      (rows ++ rest.1, page :: rest.2)

/-- Modelled from the spec: the whole collection run, starting at page 1
with a configured page bound. -/
def collectPages (fetchPage : Nat → List Record) (bound : Nat) :
    List Record × List Nat :=
  collectFrom fetchPage bound 1

/-- C9: for a source returning rows on pages 1-3 and zero rows on
page 4, the collector returns exactly the union of pages 1-3 in order,
and the pages requested are exactly 1, 2, 3, 4 — nothing beyond the
empty page. -/
theorem c9_pagination_termination (fetchPage : Nat → List Record) (bound : Nat)
    (hbound : 4 ≤ bound)
    (h1 : fetchPage 1 ≠ []) (h2 : fetchPage 2 ≠ []) (h3 : fetchPage 3 ≠ [])
    (h4 : fetchPage 4 = []) :
    collectPages fetchPage bound =
      (fetchPage 1 ++ (fetchPage 2 ++ (fetchPage 3 ++ [])), [1, 2, 3, 4]) := by
  obtain ⟨k, rfl⟩ : ∃ k, bound = k + 4 := ⟨bound - 4, by omega⟩
  show collectFrom fetchPage (k + 4) 1 = _
  have e4 : k + 4 = (k + 3) + 1 := by omega
  rw [e4, collectFrom, if_neg h1]
  have e3 : k + 3 = (k + 2) + 1 := by omega
  rw [e3, collectFrom]
  norm_num
  rw [if_neg h2]
  have e2 : k + 2 = (k + 1) + 1 := by omega
  rw [e2, collectFrom]
  norm_num
  rw [if_neg h3]
  rw [collectFrom]
  norm_num
  rw [if_pos h4]
  simp

theorem c9_witness :
    collectPages (fun p => if p ≤ 3 then [[("page", Value.vStr "x")]] else []) 10 =
      ([[("page", Value.vStr "x")], [("page", Value.vStr "x")],
        [("page", Value.vStr "x")]], [1, 2, 3, 4]) := by
  have h := c9_pagination_termination
    (fun p => if p ≤ 3 then [[("page", Value.vStr "x")]] else []) 10
    (by decide) (by decide) (by decide) (by decide) (by decide)
  simpa using h

/-! ## Key & dedup engine -/

/-- The composite key of a record: the three fields used as the
ReplaceOne filter (source lines 150-152) and as the dedup subset
(source line 221). -/
abbrev Key := Value × Value × Value

def keyOf (r : Record) : Key :=
  (r.get "receipt_no", r.get "truck_no", r.get "garage_entry_at")

/-- `df.drop_duplicates(subset=["receipt_no", "truck_no",
"garage_entry_at"], keep="last")` (source line 221): a row is kept
exactly when no later row carries the same composite key. -/
def drop_duplicates : List Record → List Record
  | [] => []
  | r :: rest =>
    if rest.any (fun r2 => keyOf r2 == keyOf r) then drop_duplicates rest
    else r :: drop_duplicates rest

/-- C2: among records sharing one composite key, exactly the record
occurring last in input order survives deduplication: filtering the
deduplicated list by any key yields precisely the last input record with
that key (and nothing when the key never occurs). -/
theorem c2_dedup_keeps_last (rows : List Record) (k : Key) :
    (drop_duplicates rows).filter (fun r => keyOf r == k) =
      ((rows.filter (fun r => keyOf r == k)).getLast?).toList := by
  induction rows with
  | nil => rfl
  | cons r rest ih =>
    by_cases hdup : (rest.any (fun r2 => keyOf r2 == keyOf r)) = true
    · rw [drop_duplicates, if_pos hdup]
      by_cases hk : (keyOf r == k) = true
      · have hkeq : keyOf r = k := by simpa using hk
        have hne : rest.filter (fun r2 => keyOf r2 == k) ≠ [] := by
          rcases List.any_eq_true.mp hdup with ⟨r2, hr2, hr2k⟩
          intro hcon
          have := List.filter_eq_nil_iff.mp hcon r2 hr2
          rw [hkeq] at hr2k
          exact this hr2k
        rw [List.filter_cons]
        rw [if_pos hk]
        rcases hx : rest.filter (fun r2 => keyOf r2 == k) with _ | ⟨b, bs⟩
        · exact absurd hx hne
        · rw [List.getLast?_cons_cons, ih, hx]
      · rw [List.filter_cons, if_neg (by simpa using hk)]
        exact ih
    · rw [drop_duplicates, if_neg hdup]
      by_cases hk : (keyOf r == k) = true
      · have hkeq : keyOf r = k := by simpa using hk
        have hnil : rest.filter (fun r2 => keyOf r2 == k) = [] := by
          apply List.filter_eq_nil_iff.mpr
          intro r2 hr2 hcon
          apply hdup
          apply List.any_eq_true.mpr
          refine ⟨r2, hr2, ?_⟩
          rw [hkeq]
          exact hcon
        have hnil2 : (drop_duplicates rest).filter (fun r2 => keyOf r2 == k) = [] := by
          rw [ih, hnil]; rfl
        rw [List.filter_cons, if_pos hk, List.filter_cons, if_pos hk, hnil, hnil2]
        rfl
      · rw [List.filter_cons, if_neg (by simpa using hk),
          List.filter_cons, if_neg (by simpa using hk)]
        exact ih

/-! ## Batched upsert engine: `upsert_mongo` (source lines 123-195) -/

/-- Key validation (source line 155): a row is persisted only when none
of the three composite-key values is null-like (`pd.isna`); an empty
string is not null-like and passes this check. -/
def hasKey (r : Record) : Bool :=
  !(isna (r.get "receipt_no") || isna (r.get "truck_no") ||
    isna (r.get "garage_entry_at"))

/-- One `ReplaceOne(filter, replacement, upsert=True)` operation
(source lines 162-168): the composite-key filter and the replacement
document. -/
abbrev Op := Key × Record

/-- The target collection, addressed by composite key: the unique index
`uniq_tire_composite` guarantees at most one document per key. -/
abbrev Store := List (Key × Record)

def Store.lookup (s : Store) (k : Key) : Option Record :=
  match s.find? (fun e => e.1 == k) with
  | some e => some e.2
  | none => none

/-- Replace the first document matching the filter key. -/
def replaceFirst : Store → Key → Record → Store
  | [], _, _ => []
  | e :: rest, k, d =>
    if e.1 == k then (k, d) :: rest else e :: replaceFirst rest k d

/-- One ReplaceOne with upsert=True against the store: replace the
matched document, or insert the replacement when nothing matches. -/
def applyOp (s : Store) (k : Key) (d : Record) : Store :=
  if s.any (fun e => e.1 == k) then replaceFirst s k d else s ++ [(k, d)]

/-- Sequential application of a list of ReplaceOne upserts. -/
def applyOps (s : Store) (ops : List Op) : Store :=
  ops.foldl (fun s o => applyOp s o.1 o.2) s

/-- The counters reported by one `bulk_write` result. -/
structure WriteCounts where
  matched : Nat
  modified : Nat
  upserted : Nat
  deriving DecidableEq, Repr

/-- `col.bulk_write(ops, ordered=False)` (source lines 171, 179): apply
every ReplaceOne upsert and report how many filters matched an existing
document, how many replacements actually changed a document, and how
many inserts happened. -/
def bulkWrite : Store → List Op → Store × WriteCounts
  | s, [] => (s, ⟨0, 0, 0⟩)
  | s, (k, d) :: ops =>
    let hit := s.any (fun e => e.1 == k)
    let changed := if s.lookup k = some d then false else true
    let res := bulkWrite (applyOp s k d) ops
    (res.1,
      if hit then
        ⟨res.2.matched + 1,
         res.2.modified + (if changed then 1 else 0),
         res.2.upserted⟩
      else ⟨res.2.matched, res.2.modified, res.2.upserted + 1⟩)

/-- The mutable state of the row loop of `upsert_mongo`
(source lines 137-145): the counters, the pending ops of the current
chunk, the chunks already flushed (recorded in order, one per
`bulk_write` call, so the specification can talk about them), and the
collection state. -/
structure LoopState where
  skipped : Nat
  sentOps : Nat
  matched : Nat
  modified : Nat
  upserted : Nat
  ops : List Op
  batches : List (List Op)
  store : Store
  deriving Repr

/-- A flush (source lines 170-176 and 178-183): one `bulk_write` call on
the pending ops, counter aggregation, and reset of the pending chunk. -/
def flush (st : LoopState) : LoopState :=
  let res := bulkWrite st.store st.ops
  { skipped := st.skipped
    sentOps := st.sentOps + st.ops.length
    matched := st.matched + res.2.matched
    modified := st.modified + res.2.modified
    upserted := st.upserted + res.2.upserted
    ops := []
    batches := st.batches ++ [st.ops]
    store := res.1 }

/-- One iteration of `for _, row in df.iterrows()`
(source lines 147-176): key validation, stamping of `etl_loaded_at`,
appending the ReplaceOne keyed by the row's own composite key, and a
flush once the pending chunk reaches `BATCH_SIZE`. -/
def upsertStep (batchSize : Nat) (t : Value) (st : LoopState) (r : Record) :
    LoopState :=
  if hasKey r then
    let record := r.set "etl_loaded_at" t
    let st1 := { st with ops := st.ops ++ [(keyOf r, record)] }
    if batchSize ≤ st1.ops.length then flush st1 else st1
  else { st with skipped := st.skipped + 1 }

def initState (s : Store) : LoopState :=
  { skipped := 0, sentOps := 0, matched := 0, modified := 0, upserted := 0,
    ops := [], batches := [], store := s }

/-- `upsert_mongo` (source lines 123-195), success path: iterate the
rows with batched ReplaceOne upserts and flush a non-empty remainder
(source line 178).  Index creation is a no-op in the model, whose store
is already addressed by the composite key. -/
def upsert_mongo (batchSize : Nat) (t : Value) (rows : List Record)
    (s : Store) : LoopState :=
  let st := rows.foldl (upsertStep batchSize t) (initState s)
  if st.ops = [] then st else flush st

/-- The ReplaceOne operations generated from a row list: one per row
passing key validation, in input order, each filtered by the row's own
composite key and carrying the stamped document. -/
def opsOf (rows : List Record) (t : Value) : List Op :=
  (rows.filter hasKey).map (fun r => (keyOf r, r.set "etl_loaded_at" t))

/-- Per-batch replay of `bulk_write` from a starting store: the final
store and the list of per-batch counters. -/
def replay : Store → List (List Op) → Store × List WriteCounts
  | s, [] => (s, [])
  | s, b :: bs =>
    let r := bulkWrite s b
    let rest := replay r.1 bs
    (rest.1, r.2 :: rest.2)

theorem applyOps_append (s : Store) (l1 l2 : List Op) :
    applyOps s (l1 ++ l2) = applyOps (applyOps s l1) l2 := by
  unfold applyOps
  exact List.foldl_append _ _ _ _

theorem bulkWrite_store (s : Store) (ops : List Op) :
    (bulkWrite s ops).1 = applyOps s ops := by
  induction ops generalizing s with
  | nil => rfl
  | cons o ops ih =>
    obtain ⟨k, d⟩ := o
    show (bulkWrite (applyOp s k d) ops).1 = _
    rw [ih]
    rfl

theorem replay_store (s : Store) (bs : List (List Op)) :
    (replay s bs).1 = applyOps s bs.flatten := by
  induction bs generalizing s with
  | nil => rfl
  | cons b bs ih =>
    show (replay (bulkWrite s b).1 bs).1 = _
    rw [ih, bulkWrite_store, List.flatten_cons, applyOps_append]

theorem replay_append (s : Store) (bs : List (List Op)) (b : List Op) :
    replay s (bs ++ [b]) =
      ((bulkWrite (replay s bs).1 b).1,
       (replay s bs).2 ++ [(bulkWrite (replay s bs).1 b).2]) := by
  induction bs generalizing s with
  | nil => rfl
  | cons b0 bs ih =>
    show replay s ((b0 :: bs) ++ [b]) = _
    rw [List.cons_append, replay, ih]
    rfl

/-- The loop state stays consistent with replaying its recorded batches:
the store and the three write counters are exactly what running
`bulk_write` batch-by-batch from the initial store produces. -/
def Agrees (s0 : Store) (st : LoopState) : Prop :=
  st.store = (replay s0 st.batches).1 ∧
  st.matched = ((replay s0 st.batches).2.map WriteCounts.matched).sum ∧
  st.modified = ((replay s0 st.batches).2.map WriteCounts.modified).sum ∧
  st.upserted = ((replay s0 st.batches).2.map WriteCounts.upserted).sum

theorem agrees_init (s : Store) : Agrees s (initState s) :=
  ⟨rfl, rfl, rfl, rfl⟩

theorem agrees_flush (s0 : Store) (st : LoopState) (h : Agrees s0 st) :
    Agrees s0 (flush st) := by
  obtain ⟨h1, h2, h3, h4⟩ := h
  unfold Agrees flush
  simp only
  rw [replay_append, ← h1]
  refine ⟨rfl, ?_, ?_, ?_⟩
  · rw [List.map_append, List.sum_append, ← h2]
    simp
  · rw [List.map_append, List.sum_append, ← h3]
    simp
  · rw [List.map_append, List.sum_append, ← h4]
    simp

theorem agrees_step (bsz : Nat) (t : Value) (s0 : Store) (st : LoopState)
    (r : Record) (h : Agrees s0 st) : Agrees s0 (upsertStep bsz t st r) := by
  unfold upsertStep
  dsimp only
  split
  · split
    · exact agrees_flush s0 _ h
    · exact h
  · exact h

theorem agrees_foldl (bsz : Nat) (t : Value) (s0 : Store) (rows : List Record)
    (st : LoopState) (h : Agrees s0 st) :
    Agrees s0 (rows.foldl (upsertStep bsz t) st) := by
  induction rows generalizing st with
  | nil => exact h
  | cons r rows ih => exact ih _ (agrees_step bsz t s0 st r h)

theorem agrees_upsert_mongo (bsz : Nat) (t : Value) (rows : List Record)
    (s : Store) : Agrees s (upsert_mongo bsz t rows s) := by
  unfold upsert_mongo
  dsimp only
  split
  · exact agrees_foldl bsz t s rows _ (agrees_init s)
  · exact agrees_flush s _ (agrees_foldl bsz t s rows _ (agrees_init s))

theorem opsOf_cons (r : Record) (rows : List Record) (t : Value) :
    opsOf (r :: rows) t =
      (if hasKey r then [(keyOf r, r.set "etl_loaded_at" t)] else []) ++
        opsOf rows t := by
  unfold opsOf
  rw [List.filter_cons]
  split
  · rfl
  · rfl

/-- Trace invariant of the row loop: flushed ops plus pending ops grow
by exactly the eligible ops of the processed rows, the skip counter
counts the ineligible rows, and `sent_ops` plus the pending count tracks
the eligible count. -/
theorem foldl_upsertStep_trace (bsz : Nat) (t : Value) (rows : List Record)
    (st : LoopState) :
    ((rows.foldl (upsertStep bsz t) st).batches.flatten ++
        (rows.foldl (upsertStep bsz t) st).ops
      = st.batches.flatten ++ st.ops ++ opsOf rows t) ∧
    ((rows.foldl (upsertStep bsz t) st).skipped
      = st.skipped + (rows.filter (fun r => !(hasKey r))).length) ∧
    ((rows.foldl (upsertStep bsz t) st).sentOps +
        (rows.foldl (upsertStep bsz t) st).ops.length
      = st.sentOps + st.ops.length + (opsOf rows t).length) := by
  induction rows generalizing st with
  | nil =>
    refine ⟨by simp [opsOf], by simp, by simp [opsOf]⟩
  | cons r rows ih =>
    simp only [List.foldl_cons, opsOf_cons, List.filter_cons]
    have hstep : ∀ st1 : LoopState, st1 = upsertStep bsz t st r →
        (st1.batches.flatten ++ st1.ops =
          st.batches.flatten ++ st.ops ++
            (if hasKey r then [(keyOf r, r.set "etl_loaded_at" t)] else [])) ∧
        (st1.skipped = st.skipped + (if hasKey r then 0 else 1)) ∧
        (st1.sentOps + st1.ops.length =
          st.sentOps + st.ops.length +
            (if hasKey r then 1 else 0)) := by
      intro st1 hst1
      unfold upsertStep at hst1
      by_cases hk : hasKey r = true
      · rw [if_pos hk] at hst1
        simp only [hk, if_true]
        by_cases hfl : bsz ≤ st.ops.length + 1
        · rw [if_pos (by simpa using hfl)] at hst1
          subst hst1
          unfold flush
          simp only
          refine ⟨?_, rfl, ?_⟩
          · rw [List.flatten_append]
            simp [List.append_assoc]
          · simp only [List.length_append, List.length_cons, List.length_nil]
            omega
        · rw [if_neg (by simpa using hfl)] at hst1
          subst hst1
          simp only
          refine ⟨by simp [List.append_assoc], rfl, ?_⟩
          simp only [List.length_append, List.length_cons, List.length_nil]
          omega
      · rw [if_neg hk] at hst1
        subst hst1
        simp only [hk, if_false]
        exact ⟨by simp, rfl, by simp⟩
    obtain ⟨ha, hb, hc⟩ := hstep _ rfl
    obtain ⟨ia, ib, ic⟩ := ih (upsertStep bsz t st r)
    refine ⟨?_, ?_, ?_⟩
    · rw [ia, ha]
      by_cases hk : hasKey r = true <;> simp [hk, List.append_assoc]
    · rw [ib, hb]
      by_cases hk : hasKey r = true <;> simp [hk] <;> omega
    · rw [ic, hc]
      by_cases hk : hasKey r = true <;> simp [hk, opsOf] <;> omega

/-- Final trace facts about `upsert_mongo`: nothing is left pending, the
flushed batches concatenate to exactly the eligible ops in order, the
skip counter counts the rows failing key validation, and `sent_ops`
counts the eligible ops. -/
theorem upsert_mongo_trace (bsz : Nat) (t : Value) (rows : List Record)
    (s : Store) :
    (upsert_mongo bsz t rows s).ops = [] ∧
    (upsert_mongo bsz t rows s).batches.flatten = opsOf rows t ∧
    (upsert_mongo bsz t rows s).skipped =
      (rows.filter (fun r => !(hasKey r))).length ∧
    (upsert_mongo bsz t rows s).sentOps = (opsOf rows t).length := by
  obtain ⟨ha, hb, hc⟩ := foldl_upsertStep_trace bsz t rows (initState s)
  have hin1 : (initState s).batches = [] := rfl
  have hin2 : (initState s).ops = [] := rfl
  have hin3 : (initState s).skipped = 0 := rfl
  have hin4 : (initState s).sentOps = 0 := rfl
  rw [hin1, hin2] at ha
  rw [hin3] at hb
  rw [hin2, hin4] at hc
  simp only [List.flatten_nil, List.nil_append, List.append_nil,
    List.length_nil, Nat.zero_add, Nat.add_zero] at ha hb hc
  unfold upsert_mongo
  dsimp only
  by_cases hnil : (rows.foldl (upsertStep bsz t) (initState s)).ops = []
  · rw [if_pos hnil]
    rw [hnil] at ha hc
    refine ⟨hnil, ?_, hb, ?_⟩
    · simpa using ha
    · simpa using hc
  · rw [if_neg hnil]
    unfold flush
    dsimp only
    refine ⟨rfl, ?_, hb, ?_⟩
    · rw [List.flatten_append]
      simpa using ha
    · omega

/-- A loop step keeps every recorded batch at most `batchSize` long and
the pending chunk strictly shorter (for a positive batch size). -/
theorem upsertStep_sizes (bsz : Nat) (t : Value) (st : LoopState) (r : Record)
    (hbs : 1 ≤ bsz)
    (h1 : ∀ b ∈ st.batches, b.length ≤ bsz) (h2 : st.ops.length < bsz) :
    (∀ b ∈ (upsertStep bsz t st r).batches, b.length ≤ bsz) ∧
    (upsertStep bsz t st r).ops.length < bsz := by
  unfold upsertStep
  dsimp only
  split
  · split
    · unfold flush
      dsimp only
      constructor
      · intro b hb
        rcases List.mem_append.mp hb with h | h
        · exact h1 b h
        · have hb' := List.mem_singleton.mp h
          subst hb'
          simp only [List.length_append, List.length_cons, List.length_nil]
          omega
      · simp only [List.length_nil]
        omega
    · next hfl =>
      refine ⟨h1, ?_⟩
      simp only [List.length_append, List.length_cons, List.length_nil] at hfl ⊢
      omega
  · exact ⟨h1, h2⟩

theorem foldl_upsertStep_sizes (bsz : Nat) (t : Value) (rows : List Record)
    (st : LoopState) (hbs : 1 ≤ bsz)
    (h1 : ∀ b ∈ st.batches, b.length ≤ bsz) (h2 : st.ops.length < bsz) :
    (∀ b ∈ (rows.foldl (upsertStep bsz t) st).batches, b.length ≤ bsz) ∧
    (rows.foldl (upsertStep bsz t) st).ops.length < bsz := by
  induction rows generalizing st with
  | nil => exact ⟨h1, h2⟩
  | cons r rows ih =>
    obtain ⟨g1, g2⟩ := upsertStep_sizes bsz t st r hbs h1 h2
    exact ih (upsertStep bsz t st r) g1 g2

/-- Every batch flushed by `upsert_mongo` has at most `batchSize`
operations (for a positive batch size). -/
theorem upsert_mongo_sizes (bsz : Nat) (t : Value) (rows : List Record)
    (s : Store) (hbs : 1 ≤ bsz) :
    ∀ b ∈ (upsert_mongo bsz t rows s).batches, b.length ≤ bsz := by
  obtain ⟨g1, g2⟩ := foldl_upsertStep_sizes bsz t rows (initState s) hbs
    (by intro b hb; exact absurd hb (List.not_mem_nil b)) (by exact hbs)
  unfold upsert_mongo
  dsimp only
  split
  · exact g1
  · unfold flush
    dsimp only
    intro b hb
    rcases List.mem_append.mp hb with h | h
    · exact g1 b h
    · have hb' := List.mem_singleton.mp h
      subst hb'
      omega

/-- `find?` by a field name other than `m` ignores the removal of the
bindings of `m`. -/
theorem find?_filter_ne (r : Record) (n m : String) (h : n ≠ m) :
    (r.filter (fun e => e.1 != m)).find? (fun e => e.1 == n)
      = r.find? (fun e => e.1 == n) := by
  induction r with
  | nil => rfl
  | cons e r ih =>
    rw [List.filter_cons]
    by_cases hm : (e.1 != m) = true
    · rw [if_pos hm]
      cases hp : (e.1 == n) with
      | true => simp only [List.find?_cons, hp]
      | false => simp only [List.find?_cons, hp, ih]
    · rw [if_neg hm]
      have hem : e.1 = m := by simpa using hm
      have hpn : (e.1 == n) = false := by
        apply beq_eq_false_iff_ne.mpr
        rw [hem]
        exact fun hc => h hc.symm
      simp only [List.find?_cons, hpn, ih]

/-- Stamping `etl_loaded_at` does not disturb any other field. -/
theorem get_set_ne (r : Record) (n m : String) (v : Value) (h : n ≠ m) :
    (r.set m v).get n = r.get n := by
  unfold Record.set Record.get
  rw [List.find?_append, find?_filter_ne r n m h]
  cases hf : r.find? (fun e => e.1 == n) with
  | some e => rfl
  | none =>
    have hmn : ((m, v).1 == n) = false := by
      apply beq_eq_false_iff_ne.mpr
      exact fun hc => h hc.symm
    simp [List.find?_cons, hmn]

/-- The stamped document keeps the row's composite key. -/
theorem keyOf_set_stamp (r : Record) (t : Value) :
    keyOf (r.set "etl_loaded_at" t) = keyOf r := by
  unfold keyOf
  rw [get_set_ne r _ _ t (by decide), get_set_ne r _ _ t (by decide),
    get_set_ne r _ _ t (by decide)]

/-- Stripping the stamp undoes stamping, up to the other fields. -/
theorem strip_set (r : Record) (t : Value) :
    (r.set "etl_loaded_at" t).strip "etl_loaded_at" = r.strip "etl_loaded_at" := by
  unfold Record.set Record.strip
  rw [List.filter_append, List.filter_filter]
  have h2 : List.filter (fun e => e.1 != "etl_loaded_at") [("etl_loaded_at", t)] = [] := by
    simp [List.filter_cons]
  rw [h2, List.append_nil]
  apply List.filter_congr
  intro e _
  cases he : (e.1 != "etl_loaded_at") <;> simp [he]

theorem lookup_replaceFirst_self (s : Store) (k : Key) (d : Record)
    (h : s.any (fun e => e.1 == k) = true) :
    (replaceFirst s k d).lookup k = some d := by
  induction s with
  | nil => simp at h
  | cons e rest ih =>
    rw [replaceFirst]
    by_cases he : (e.1 == k) = true
    · rw [if_pos he]
      unfold Store.lookup
      simp [List.find?_cons]
    · rw [if_neg he]
      have he' : (e.1 == k) = false := by simpa using he
      unfold Store.lookup
      simp only [List.find?_cons, he']
      have hrest : rest.any (fun e => e.1 == k) = true := by
        rcases List.any_eq_true.mp h with ⟨x, hx, hxk⟩
        rcases List.mem_cons.mp hx with rfl | hx2
        · exact absurd hxk he
        · exact List.any_eq_true.mpr ⟨x, hx2, hxk⟩
      have hih := ih hrest
      unfold Store.lookup at hih
      exact hih

theorem lookup_applyOp_self (s : Store) (k : Key) (d : Record) :
    (applyOp s k d).lookup k = some d := by
  unfold applyOp
  by_cases h : s.any (fun e => e.1 == k) = true
  · rw [if_pos h]
    exact lookup_replaceFirst_self s k d h
  · rw [if_neg h]
    unfold Store.lookup
    rw [List.find?_append]
    have hnone : s.find? (fun e => e.1 == k) = none := by
      rw [List.find?_eq_none]
      intro x hx hpx
      exact h (List.any_eq_true.mpr ⟨x, hx, hpx⟩)
    rw [hnone]
    simp [List.find?_cons]

theorem lookup_replaceFirst_ne (s : Store) (k : Key) (d : Record) (q : Key)
    (h : q ≠ k) :
    (replaceFirst s k d).lookup q = s.lookup q := by
  induction s with
  | nil => rfl
  | cons e rest ih =>
    rw [replaceFirst]
    by_cases he : (e.1 == k) = true
    · rw [if_pos he]
      have he' : e.1 = k := by simpa using he
      have hkq : (k == q) = false := by
        apply beq_eq_false_iff_ne.mpr
        exact fun hc => h hc.symm
      unfold Store.lookup
      simp only [List.find?_cons, hkq, he', Prod.fst]
    · rw [if_neg he]
      unfold Store.lookup
      simp only [List.find?_cons]
      cases hp : (e.1 == q) with
      | true => rfl
      | false =>
        have hih := ih
        unfold Store.lookup at hih
        exact hih

theorem lookup_applyOp_ne (s : Store) (k : Key) (d : Record) (q : Key)
    (h : q ≠ k) :
    (applyOp s k d).lookup q = s.lookup q := by
  unfold applyOp
  split
  · exact lookup_replaceFirst_ne s k d q h
  · unfold Store.lookup
    rw [List.find?_append]
    have hkq : ((k, d).1 == q) = false := by
      apply beq_eq_false_iff_ne.mpr
      exact fun hc => h hc.symm
    cases hf : s.find? (fun e => e.1 == q) with
    | some e => rfl
    | none => simp [List.find?_cons, hkq]

/-- Looking a key up after a run of ReplaceOne upserts yields the
replacement of the last operation filtered by that key, and the original
document when no operation targets the key. -/
theorem lookup_applyOps (s : Store) (ops : List Op) (k : Key) :
    (applyOps s ops).lookup k =
      match (ops.filter (fun o => o.1 == k)).getLast? with
      | some o => some o.2
      | none => s.lookup k := by
  induction ops generalizing s with
  | nil => rfl
  | cons o ops ih =>
    obtain ⟨k0, d0⟩ := o
    show (applyOps (applyOp s k0 d0) ops).lookup k = _
    rw [ih, List.filter_cons]
    by_cases h0 : ((k0, d0).1 == k) = true
    · rw [if_pos h0]
      have hk0 : k0 = k := by simpa using h0
      subst hk0
      rcases hx : ops.filter (fun o => o.1 == k0) with _ | ⟨b, bs⟩
      · rw [hx]
        simp only [List.getLast?_nil, List.getLast?_singleton]
        exact lookup_applyOp_self s k0 d0
      · rw [hx, List.getLast?_cons_cons]
        cases hgl : ((b :: bs) : List Op).getLast? with
        | some o2 => rfl
        | none => exact absurd (List.getLast?_eq_none_iff.mp hgl) (by simp)
    · rw [if_neg h0]
      have hk0 : k ≠ k0 := by
        intro hc
        exact h0 (by simp [hc])
      cases hf : (ops.filter (fun o => o.1 == k)).getLast? with
      | some o2 => rfl
      | none => exact lookup_applyOp_ne s k0 d0 k hk0

theorem mem_keys_of_lookup (s : Store) (k : Key) (d : Record)
    (h : s.lookup k = some d) : k ∈ s.map Prod.fst := by
  unfold Store.lookup at h
  cases hf : s.find? (fun e => e.1 == k) with
  | none => rw [hf] at h; cases h
  | some e =>
    have hmem := List.mem_of_find?_eq_some hf
    have hpe := List.find?_some hf
    have he : e.1 = k := by simpa using hpe
    exact he ▸ List.mem_map_of_mem Prod.fst hmem

theorem keys_replaceFirst (s : Store) (k : Key) (d : Record) :
    (replaceFirst s k d).map Prod.fst = s.map Prod.fst := by
  induction s with
  | nil => rfl
  | cons e rest ih =>
    rw [replaceFirst]
    by_cases he : (e.1 == k) = true
    · rw [if_pos he]
      have he' : e.1 = k := by simpa using he
      simp [he']
    · rw [if_neg he]
      simp [ih]

theorem any_keys_iff (s : Store) (k : Key) :
    s.any (fun e => e.1 == k) = true ↔ k ∈ s.map Prod.fst := by
  rw [List.any_eq_true]
  constructor
  · rintro ⟨e, he, hek⟩
    have he' : e.1 = k := by simpa using hek
    exact he' ▸ List.mem_map_of_mem Prod.fst he
  · intro hk
    rcases List.mem_map.mp hk with ⟨e, he, hek⟩
    exact ⟨e, he, by simp [hek]⟩

/-- When every operation's key already addresses a document, a run of
ReplaceOne upserts only replaces: the key list of the store is
unchanged. -/
theorem keys_applyOps_of_mem (s : Store) (ops : List Op)
    (h : ∀ o ∈ ops, o.1 ∈ s.map Prod.fst) :
    (applyOps s ops).map Prod.fst = s.map Prod.fst := by
  induction ops generalizing s with
  | nil => rfl
  | cons o ops ih =>
    obtain ⟨k0, d0⟩ := o
    show (applyOps (applyOp s k0 d0) ops).map Prod.fst = _
    have h0 : k0 ∈ s.map Prod.fst := h (k0, d0) (List.mem_cons_self _ _)
    have happ : (applyOp s k0 d0).map Prod.fst = s.map Prod.fst := by
      unfold applyOp
      rw [if_pos ((any_keys_iff s k0).mpr h0)]
      exact keys_replaceFirst s k0 d0
    have hrest : ∀ o ∈ ops, o.1 ∈ (applyOp s k0 d0).map Prod.fst := by
      intro o ho
      rw [happ]
      exact h o (List.mem_cons_of_mem _ ho)
    rw [ih (applyOp s k0 d0) hrest, happ]

/-- After a run of upserts, the key of every operation addresses a
document of the store. -/
theorem opKeys_mem_after (s : Store) (ops : List Op) (o : Op) (ho : o ∈ ops) :
    o.1 ∈ (applyOps s ops).map Prod.fst := by
  rcases hx : ops.filter (fun o2 => o2.1 == o.1) with _ | ⟨b, bs⟩
  · exfalso
    have := List.filter_eq_nil_iff.mp hx o ho
    simp at this
  · have hlast : ∃ o2, ((b :: bs) : List Op).getLast? = some o2 := by
      cases hgl : ((b :: bs) : List Op).getLast? with
      | some o2 => exact ⟨o2, rfl⟩
      | none => exact absurd (List.getLast?_eq_none_iff.mp hgl) (by simp)
    rcases hlast with ⟨o2, ho2⟩
    have hlk : (applyOps s ops).lookup o.1 = some o2.2 := by
      rw [lookup_applyOps, hx, ho2]
    exact mem_keys_of_lookup _ _ _ hlk

theorem filter_opsOf (rows : List Record) (t : Value) (k : Key) :
    (opsOf rows t).filter (fun o => o.1 == k)
      = ((rows.filter hasKey).filter (fun r => keyOf r == k)).map
          (fun r => (keyOf r, r.set "etl_loaded_at" t)) := by
  unfold opsOf
  rw [List.filter_map]
  congr 1

theorem getLast?_filter_opsOf (rows : List Record) (t : Value) (k : Key) :
    ((opsOf rows t).filter (fun o => o.1 == k)).getLast?
      = (((rows.filter hasKey).filter (fun r => keyOf r == k)).getLast?).map
          (fun r => (keyOf r, r.set "etl_loaded_at" t)) := by
  rw [filter_opsOf]
  exact List.getLast?_map _ _

/-- The store produced by `upsert_mongo` is the sequential application
of the eligible stamped ReplaceOne upserts. -/
theorem upsert_mongo_store (bsz : Nat) (t : Value) (rows : List Record)
    (s : Store) :
    (upsert_mongo bsz t rows s).store = applyOps s (opsOf rows t) := by
  obtain ⟨a1, -, -, -⟩ := agrees_upsert_mongo bsz t rows s
  obtain ⟨-, htr, -, -⟩ := upsert_mongo_trace bsz t rows s
  rw [a1, replay_store, htr]

/-- Applying the same rows a second time changes no document except for
the refreshed stamp. -/
theorem lookup_twice_strip (rows : List Record) (tA tB : Value) (sA : Store)
    (k : Key) :
    ((applyOps (applyOps sA (opsOf rows tA)) (opsOf rows tB)).lookup k).map
        (fun d => d.strip "etl_loaded_at")
      = ((applyOps sA (opsOf rows tA)).lookup k).map
        (fun d => d.strip "etl_loaded_at") := by
  cases hL : ((rows.filter hasKey).filter (fun r => keyOf r == k)).getLast? with
  | none =>
    rw [lookup_applyOps, getLast?_filter_opsOf rows tB k, hL]
    rfl
  | some r0 =>
    rw [lookup_applyOps, getLast?_filter_opsOf rows tB k, hL]
    rw [lookup_applyOps, getLast?_filter_opsOf rows tA k, hL]
    show some ((r0.set "etl_loaded_at" tB).strip "etl_loaded_at") = some ((r0.set "etl_loaded_at" tA).strip "etl_loaded_at")
    rw [strip_set, strip_set]

/-- C1: re-running the upsert step on unchanged rows leaves the target
collection identical to running it once except for the refreshed
`etl_loaded_at` stamp: same document count, same composite keys, and
the same field values once `etl_loaded_at` is ignored. -/
theorem c1_upsert_idempotent (bsz : Nat) (t1 t2 : Value) (rows : List Record)
    (s : Store) :
    ((upsert_mongo bsz t2 rows (upsert_mongo bsz t1 rows s).store).store.length
      = (upsert_mongo bsz t1 rows s).store.length) ∧
    ((upsert_mongo bsz t2 rows (upsert_mongo bsz t1 rows s).store).store.map Prod.fst
      = (upsert_mongo bsz t1 rows s).store.map Prod.fst) ∧
    ∀ k : Key,
      ((upsert_mongo bsz t2 rows (upsert_mongo bsz t1 rows s).store).store.lookup k).map
          (fun d => d.strip "etl_loaded_at")
        = ((upsert_mongo bsz t1 rows s).store.lookup k).map
          (fun d => d.strip "etl_loaded_at") := by
  rw [upsert_mongo_store bsz t2 rows ((upsert_mongo bsz t1 rows s).store),
    upsert_mongo_store bsz t1 rows s]
  have hkeys : (applyOps (applyOps s (opsOf rows t1)) (opsOf rows t2)).map Prod.fst
      = (applyOps s (opsOf rows t1)).map Prod.fst := by
    apply keys_applyOps_of_mem
    intro o ho
    unfold opsOf at ho
    rcases List.mem_map.mp ho with ⟨r, hr, rfl⟩
    have h1 : (keyOf r, r.set "etl_loaded_at" t1) ∈ opsOf rows t1 := by
      unfold opsOf
      exact List.mem_map_of_mem _ hr
    have h2 := opKeys_mem_after s (opsOf rows t1) _ h1
    simpa using h2
  refine ⟨?_, hkeys, fun k => lookup_twice_strip rows t1 t2 s k⟩
  have hlen := congrArg List.length hkeys
  simpa using hlen

/-- C6: the upsert engine partitions the eligible records into chunks of
at most the configured batch size, submits each chunk as one bulk write
of exactly one ReplaceOne per record filtered by that record's own
composite key (the chunks concatenate to the eligible ops in input
order), and its matched/modified/upserted counters equal the per-batch
bulk-write counters summed across all batches. -/
theorem c6_batching (bsz : Nat) (t : Value) (rows : List Record) (s : Store)
    (hbs : 1 ≤ bsz) :
    (∀ b ∈ (upsert_mongo bsz t rows s).batches, b.length ≤ bsz) ∧
    (upsert_mongo bsz t rows s).batches.flatten = opsOf rows t ∧
    (∀ op ∈ (upsert_mongo bsz t rows s).batches.flatten, op.1 = keyOf op.2) ∧
    (upsert_mongo bsz t rows s).matched =
      ((replay s (upsert_mongo bsz t rows s).batches).2.map WriteCounts.matched).sum ∧
    (upsert_mongo bsz t rows s).modified =
      ((replay s (upsert_mongo bsz t rows s).batches).2.map WriteCounts.modified).sum ∧
    (upsert_mongo bsz t rows s).upserted =
      ((replay s (upsert_mongo bsz t rows s).batches).2.map WriteCounts.upserted).sum := by
  obtain ⟨-, htr, -, -⟩ := upsert_mongo_trace bsz t rows s
  obtain ⟨-, a2, a3, a4⟩ := agrees_upsert_mongo bsz t rows s
  refine ⟨upsert_mongo_sizes bsz t rows s hbs, htr, ?_, a2, a3, a4⟩
  intro op hop
  rw [htr] at hop
  unfold opsOf at hop
  rcases List.mem_map.mp hop with ⟨r, hr, rfl⟩
  exact (keyOf_set_stamp r t).symm

/-- C10: counter accounting of the upsert engine — every input row is
either counted once as skipped or sent as exactly one replace operation,
so skipped plus operations sent equals the number of input rows. -/
theorem c10_counter_accounting (bsz : Nat) (t : Value) (rows : List Record)
    (s : Store) :
    (upsert_mongo bsz t rows s).skipped + (upsert_mongo bsz t rows s).sentOps
      = rows.length := by
  obtain ⟨-, -, hsk, hsent⟩ := upsert_mongo_trace bsz t rows s
  rw [hsk, hsent]
  unfold opsOf
  rw [List.length_map]
  have hpart := List.length_eq_length_filter_add (l := rows) hasKey
  omega

/-- The record driving the C3 counterexample: its `receipt_no` is the
empty string, which is empty but not null-like (`pd.isna("")` is
`False`). -/
def emptyKeyRecord : Record :=
  [("receipt_no", Value.vStr ""), ("truck_no", Value.vStr "T1"),
   ("garage_entry_at", Value.vDate ⟨2024, 3, 5⟩)]

/-- C3 counterexample: a coerced record whose `receipt_no` is the empty
string is submitted for persistence (one operation sent, nothing
skipped), although the claim requires all three key fields to be
non-null AND non-empty for submission. -/
theorem c3_counterexample :
    emptyKeyRecord.get "receipt_no" = Value.vStr "" ∧
    (upsert_mongo 1000 (Value.vDate ⟨2025, 1, 1⟩) [emptyKeyRecord] []).skipped = 0 ∧
    (upsert_mongo 1000 (Value.vDate ⟨2025, 1, 1⟩) [emptyKeyRecord] []).sentOps = 1 := by
  refine ⟨rfl, rfl, rfl⟩

/-- C3 amended: a coerced record is submitted for persistence exactly
when none of its three composite-key fields is null-like under
`pd.isna` (an empty string passes the check); every violating record is
dropped and counted in the skipped counter, and every submitted document
has all three key fields non-null. -/
theorem c3_key_validation (bsz : Nat) (t : Value) (rows : List Record)
    (s : Store) :
    (upsert_mongo bsz t rows s).skipped
      = (rows.filter (fun r => !(hasKey r))).length ∧
    (upsert_mongo bsz t rows s).batches.flatten = opsOf rows t ∧
    ∀ op ∈ (upsert_mongo bsz t rows s).batches.flatten,
      isna (op.2.get "receipt_no") = false ∧
      isna (op.2.get "truck_no") = false ∧
      isna (op.2.get "garage_entry_at") = false := by
  obtain ⟨-, htr, hsk, -⟩ := upsert_mongo_trace bsz t rows s
  refine ⟨hsk, htr, ?_⟩
  intro op hop
  rw [htr] at hop
  unfold opsOf at hop
  rcases List.mem_map.mp hop with ⟨r, hr, rfl⟩
  have hkr : hasKey r = true := (List.mem_filter.mp hr).2
  unfold hasKey at hkr
  simp only [Bool.not_eq_eq_eq_not, Bool.not_true, Bool.or_eq_false_iff] at hkr
  obtain ⟨⟨hk1, hk2⟩, hk3⟩ := hkr
  dsimp only
  rw [get_set_ne r _ _ t (by decide), get_set_ne r _ _ t (by decide),
    get_set_ne r _ _ t (by decide)]
  exact ⟨hk1, hk2, hk3⟩

def stampW : Value := Value.vDate ⟨2025, 1, 1⟩

def rowsW : List Record :=
  [[("receipt_no", Value.vStr "R1"), ("truck_no", Value.vStr "T1"),
    ("garage_entry_at", Value.vDate ⟨2024, 1, 1⟩)],
   [("receipt_no", Value.vStr "R2"), ("truck_no", Value.vStr "T2"),
    ("garage_entry_at", Value.vDate ⟨2024, 1, 2⟩)],
   [("receipt_no", Value.vStr "R3"), ("truck_no", Value.vStr "T3"),
    ("garage_entry_at", Value.vDate ⟨2024, 1, 3⟩)]]

theorem c6_witness :
    1 ≤ 2 ∧
    ((∀ b ∈ (upsert_mongo 2 stampW rowsW []).batches, b.length ≤ 2) ∧
     (upsert_mongo 2 stampW rowsW []).batches.flatten = opsOf rowsW stampW ∧
     (∀ op ∈ (upsert_mongo 2 stampW rowsW []).batches.flatten, op.1 = keyOf op.2) ∧
     (upsert_mongo 2 stampW rowsW []).matched =
       ((replay [] (upsert_mongo 2 stampW rowsW []).batches).2.map
         WriteCounts.matched).sum ∧
     (upsert_mongo 2 stampW rowsW []).modified =
       ((replay [] (upsert_mongo 2 stampW rowsW []).batches).2.map
         WriteCounts.modified).sum ∧
     (upsert_mongo 2 stampW rowsW []).upserted =
       ((replay [] (upsert_mongo 2 stampW rowsW []).batches).2.map
         WriteCounts.upserted).sum) :=
  ⟨by decide, c6_batching 2 stampW rowsW [] (by decide)⟩

/-! ## Connection lifecycle: the failure path of `upsert_mongo` -/

/-- Whether an `Except` run completed without a raised error. -/
def isOkE : Except LoopState LoopState → Bool
  | .ok _ => true
  | .error _ => false

/-- A flush in the failure-aware model of `upsert_mongo`: the
`bulk_write` call either raises — as dictated by the failure oracle,
indexed by the number of `bulk_write` calls made so far — or succeeds as
in `flush`.  On a raise the carried state reports the progress made so
far. -/
def flushE (failOn : Nat → Bool) (st : LoopState) : Except LoopState LoopState :=
  if failOn st.batches.length then .error st else .ok (flush st)

/-- One row iteration in the failure-aware model
(source lines 147-176). -/
def upsertStepE (failOn : Nat → Bool) (batchSize : Nat) (t : Value)
    (st : LoopState) (r : Record) : Except LoopState LoopState :=
  if hasKey r then
    let record := r.set "etl_loaded_at" t
    let st1 := { st with ops := st.ops ++ [(keyOf r, record)] }
    if batchSize ≤ st1.ops.length then flushE failOn st1 else .ok st1
  else .ok { st with skipped := st.skipped + 1 }

/-- `upsert_mongo` with its failure path (source lines 127-195): the
client is acquired once at the start of the run; a raising `bulk_write`
propagates out of the function past the `client.close()` of source line
186, which only the success path reaches.  The boolean of the result
records whether `client.close()` ran. -/
def upsert_mongoE (failOn : Nat → Bool) (batchSize : Nat) (t : Value)
    (rows : List Record) (s : Store) : Bool × Except LoopState LoopState :=
  match rows.foldlM (upsertStepE failOn batchSize t) (initState s) with
  | .error st => (false, .error st)
  | .ok st =>
    match (if st.ops = [] then Except.ok st else flushE failOn st) with
    | .error st1 => (false, .error st1)
    | .ok st1 => (true, .ok st1)

/-- An eligible record used by concrete runs. -/
def okKeyRecord : Record :=
  [("receipt_no", Value.vStr "R9"), ("truck_no", Value.vStr "T9"),
   ("garage_entry_at", Value.vDate ⟨2024, 9, 9⟩)]

/-- C7 counterexample: with one eligible record and a `bulk_write` that
raises, the run fails and `client.close()` never executes — the
connection is not released on this failure path, contradicting
"released unconditionally ... on every failure path". -/
theorem c7_counterexample :
    (upsert_mongoE (fun _ => true) 1000 (Value.vDate ⟨2025, 1, 1⟩)
        [okKeyRecord] []).1 = false ∧
    isOkE (upsert_mongoE (fun _ => true) 1000 (Value.vDate ⟨2025, 1, 1⟩)
        [okKeyRecord] []).2 = false := by
  exact ⟨rfl, rfl⟩

/-- C7 amended: the connection is acquired once per run, and
`client.close()` runs exactly on the success path — it is reached iff no
`bulk_write` raised; a bulk-write error instead propagates with the
partial state, skipping the close. -/
theorem c7_close_iff_success (failOn : Nat → Bool) (bsz : Nat) (t : Value)
    (rows : List Record) (s : Store) :
    (upsert_mongoE failOn bsz t rows s).1
      = isOkE (upsert_mongoE failOn bsz t rows s).2 := by
  unfold upsert_mongoE
  cases hfold : rows.foldlM (upsertStepE failOn bsz t) (initState s) with
  | error st => rfl
  | ok st =>
    dsimp only
    cases hfl : (if st.ops = [] then Except.ok st else flushE failOn st) with
    | error st1 => rfl
    | ok st1 => rfl

end EtlTire
